import Mathlib

/-!
Verification development for the AutoDisplacedAI text-transformation pipeline
(src/main/main.py, class ArticleProcessor).

The Python source is shallowly embedded: Python strings become Lean strings
(lists of unicode characters), the jieba tokenizer and the pseg POS tagger are
modelled as function parameters (the source treats them as an external
capability), and each method of ArticleProcessor becomes a Lean function that
follows the Python control flow line by line.
-/

namespace AutoDisplaced

/-- The three sentence-terminal punctuation marks used by the pipeline
(the set scanned by the regular expression in ArticleProcessor.process). -/
def isTerminalMark (c : Char) : Bool :=
  c == '。' || c == '！' || c == '？'

/-- The synonym table built by ArticleProcessor.load_synonyms: an association
list from original term to the list of replacement candidates, in first
insertion order (Python dict preserves insertion order). -/
abbrev SynTable := List (String × List String)

/-- The POS tagger capability (pseg.cut): a sentence is segmented into
(surface word, POS tag) pairs. -/
abbrev Tagger := String → List (String × String)

/-- The plain segmenter capability (jieba.lcut). -/
abbrev Segmenter := String → List String

/-! ## ClauseStripper: the regular expression substitution

The source line is
  sentence = re.sub(r'当.*?时，?|尽管.*?，?|虽然.*?但是', '', sentence)
We embed Python re semantics directly: scan left to right for the leftmost
match; at a position try the three alternation branches in order; a lazy
star expands as little as possible (and the dot does not match a newline);
an optional item is tried greedily.  Each match is deleted and scanning
resumes after it. -/

/-- Lazy search for a literal target: the least number of dot-matched
characters (none of which may be a newline) after which the target is a
prefix of the remainder.  This is the behaviour of a lazy star followed by
a literal in Python re. -/
def lazyFind (tgt : List Char) : List Char → Option Nat
  | [] => if tgt.isPrefixOf ([] : List Char) then some 0 else none
  | c :: rest =>
    if tgt.isPrefixOf (c :: rest) then some 0
    else if c = '\n' then none
    else (lazyFind tgt rest).map (· + 1)

/-- Length of a match of the branch 当.*?时，? at the head of the input. -/
def matchDang : List Char → Option Nat
  | c :: rest =>
    if c = '当' then
      match lazyFind ['时'] rest with
      | some k =>
        match (rest.drop (k + 1)).head? with
        | some c2 => if c2 = '，' then some (k + 3) else some (k + 2)
        | none => some (k + 2)
      | none => none
    else none
  | [] => none

/-- Length of a match of the branch 尽管.*?，? at the head of the input.
Because the lazy star prefers the empty expansion and the trailing comma is
optional, this branch matches exactly the two characters 尽管, plus at most
one immediately following comma. -/
def matchJinguan : List Char → Option Nat
  | c1 :: c2 :: rest =>
    if c1 = '尽' ∧ c2 = '管' then
      match rest.head? with
      | some c3 => if c3 = '，' then some 3 else some 2
      | none => some 2
    else none
  | _ => none

/-- Length of a match of the branch 虽然.*?但是 at the head of the input. -/
def matchSuiran : List Char → Option Nat
  | c1 :: c2 :: rest =>
    if c1 = '虽' ∧ c2 = '然' then
      match lazyFind ['但', '是'] rest with
      | some k => some (k + 4)
      | none => none
    else none
  | _ => none

/-- Try the three alternation branches, in the order they appear in the
regular expression, at the head of the input. -/
def tryMatchAt (cs : List Char) : Option Nat :=
  (matchDang cs).orElse (fun _ => (matchJinguan cs).orElse (fun _ => matchSuiran cs))

/-- Fuelled scanning substitution: delete the leftmost match and resume
after it.  The fuel is only a termination device; every match consumes at
least one character, so fuel equal to the length of the input is always
enough. -/
def regexSubAux : Nat → List Char → List Char
  | 0, cs => cs
  | fuel + 1, cs =>
    match tryMatchAt cs with
    | some n => regexSubAux fuel (cs.drop n)
    | none =>
      match cs with
      | [] => []
      | c :: rest => c :: regexSubAux fuel rest

/-- The clause-stripping substitution on character lists. -/
def stripL (cs : List Char) : List Char :=
  regexSubAux cs.length cs

/-- ClauseStripper.strip: the re.sub line of ArticleProcessor._condense_sentence. -/
def stripClauses (s : String) : String :=
  ⟨stripL s.data⟩

/-! ## Condenser: ArticleProcessor._condense_sentence after stripping -/

/-- Whether the first character of a fine POS tag is one of n, v, a
(the Python test pos[0] in ['n', 'v', 'a']). -/
def coarseIsNVA (pos : String) : Bool :=
  match pos.data with
  | [] => false
  | c :: _ => c == 'n' || c == 'v' || c == 'a'

/-- The keep test of the token-selection loop: nouns, verbs and adjectives of
length at least two, plus the two discourse connectors regardless of tag. -/
def keepToken (word pos : String) : Bool :=
  if coarseIsNVA pos && decide (1 < word.length) then true
  else if word == "但是" || word == "然而" then true
  else false

/-- The token-selection loop: keep the words passing the keep test, in order. -/
def filterKept (toks : List (String × String)) : List String :=
  toks.filterMap (fun wp => if keepToken wp.1 wp.2 then some wp.1 else none)

/-- The output-building loop of _condense_sentence.  The accumulated output
list is the Python variable condensed; prev is the previous kept word
(kept_words[i-1]), none at the first iteration. -/
def dedupAux (acc : List String) (prev : Option String) : List String → List String
  | [] => acc
  | w :: rest =>
    if prev = some "但是" ∨ prev = some "然而" then
      dedupAux (acc ++ [w]) (some w) rest
    else if w ∈ acc then
      dedupAux acc (some w) rest
    else
      dedupAux (acc ++ [w]) (some w) rest

/-- Build the condensed sentence from the kept tokens: early return of the
empty string when no token was kept, otherwise the joined de-duplicated list. -/
def condenseKept (kept : List String) : String :=
  if kept = [] then "" else String.join (dedupAux [] none kept)

/-- ArticleProcessor._condense_sentence: strip filler clauses, tag, select
content tokens, de-duplicate with connector handling, join. -/
def condenseSentence (tagger : Tagger) (sentence : String) : String :=
  condenseKept (filterKept (tagger (stripClauses sentence)))

/-! ## SynonymSubstitutor: ArticleProcessor._replace_words -/

/-- Dictionary lookup (Python: word in self.synonyms / self.synonyms[word]). -/
def lookupSyn (syn : SynTable) (w : String) : Option (List String) :=
  (syn.find? (fun p => p.1 == w)).map (fun p => p.2)

/-- The keys of the table, in insertion order. -/
def synKeys (syn : SynTable) : List String :=
  syn.map Prod.fst

/-- The keys sorted by descending length
(Python: sorted(self.synonyms.keys(), key=len, reverse=True), a stable sort). -/
def sortedKeys (syn : SynTable) : List String :=
  List.insertionSort (fun a b => b.length ≤ a.length) (synKeys syn)

/-- Python text.startswith(k, i): does k occur in text starting exactly at
character offset i? -/
def startsWithAt (text : String) (k : String) (i : Nat) : Bool :=
  k.data.isPrefixOf (text.data.drop i)

/-- Scan the keys in descending length order for the first one matching the
text at the cursor. -/
def findLongest (syn : SynTable) (text : String) (i : Nat) : Option String :=
  (sortedKeys syn).find? (fun k => startsWithAt text k i)

/-- First replacement of a key (Python self.synonyms[k][0]; the lists built
by load_synonyms are never empty, so the defaults are never reached there). -/
def firstRepl (syn : SynTable) (k : String) : String :=
  ((lookupSyn syn k).getD []).headD ""

/-- The word loop of _replace_words: walk the segmentation tokens, keeping a
character cursor into the original text. -/
def replaceGo (syn : SynTable) (text : String) : List String → Nat → List String
  | [], _ => []
  | w :: rest, idx =>
    match lookupSyn syn w with
    | some l =>
      match findLongest syn text idx with
      | some k => firstRepl syn k :: replaceGo syn text rest (idx + k.length)
      | none => l.headD "" :: replaceGo syn text rest (idx + w.length)
    | none => w :: replaceGo syn text rest (idx + w.length)

/-- ArticleProcessor._replace_words, with the jieba segmentation of the text
passed in explicitly as the token list. -/
def replaceWords (syn : SynTable) (text : String) (words : List String) : String :=
  String.join (replaceGo syn text words 0)

/-! ## SynonymTable loading: ArticleProcessor.load_synonyms -/

/-- Python str.strip(): remove whitespace from both ends. -/
def pyStrip (cs : List Char) : List Char :=
  ((cs.dropWhile Char.isWhitespace).reverse.dropWhile Char.isWhitespace).reverse

/-- Python re.split(r'\s+', line, 1): cut the line at its first whitespace
run into at most two pieces. -/
def splitFirstWs (cs : List Char) : List (List Char) :=
  let before := cs.takeWhile (fun c => !c.isWhitespace)
  let rest := cs.dropWhile (fun c => !c.isWhitespace)
  match rest with
  | [] => [cs]
  | _ => [before, rest.dropWhile Char.isWhitespace]

/-- Record one replacement for a key in the defaultdict(list): append to the
existing entry or create a new singleton entry at the end. -/
def addSyn (tbl : SynTable) (k v : String) : SynTable :=
  if (tbl.find? (fun p => p.1 == k)).isSome then
    tbl.map (fun p => if p.1 == k then (p.1, p.2 ++ [v]) else p)
  else
    tbl ++ [(k, [v])]

/-- The body of the line loop of load_synonyms: strip the line, skip it when
blank, split it at the first whitespace run, record it when that yields
exactly two fields. -/
def addSynLine (tbl : SynTable) (line : String) : SynTable :=
  let l := pyStrip line.data
  if l = [] then tbl
  else
    match splitFirstWs l with
    | [o, r] => addSyn tbl ⟨o⟩ ⟨r⟩
    | _ => tbl

/-- The table built from the lines that were successfully read. -/
def loadSynonyms (lines : List String) : SynTable :=
  lines.foldl addSynLine []

/-- ArticleProcessor.load_synonyms as seen by the constructor.  The reading
of the source yields a list of lines and then possibly fails (ioError);
the Python code wraps the whole loop in try/except, shows the error in a
message box, and falls through, so construction always succeeds and the
entries of the lines read before the failure stay in the table. -/
def loadSynonymsResult (lines : List String) (_ioError : Bool) : Except String SynTable :=
  Except.ok (loadSynonyms lines)

/-! ## ArticlePipeline: ArticleProcessor.process -/

/-- Python text.split(chr 10), accumulator version. -/
def splitLinesGo (acc : List Char) : List Char → List (List Char)
  | [] => [acc.reverse]
  | c :: rest =>
    if c = '\n' then acc.reverse :: splitLinesGo [] rest
    else splitLinesGo (c :: acc) rest

/-- Python text.split(chr 10): the paragraphs of the text, empty pieces kept. -/
def splitLinesL (cs : List Char) : List (List Char) :=
  splitLinesGo [] cs

/-- Python chr-10 .join of the processed paragraphs. -/
def joinLines : List (List Char) → List Char
  | [] => []
  | [p] => p
  | p :: rest => p ++ '\n' :: joinLines rest

/-- Python re.split(r'([。！？])', para), accumulator version: the pieces
alternate between mark-free text runs and single captured marks, beginning
and ending with a (possibly empty) text run. -/
def reSplitGo (acc : List Char) : List Char → List (List Char)
  | [] => [acc.reverse]
  | c :: rest =>
    if isTerminalMark c then acc.reverse :: [c] :: reSplitGo [] rest
    else reSplitGo (c :: acc) rest

/-- Python re.split(r'([。！？])', para). -/
def reSplitMarks (para : List Char) : List (List Char) :=
  reSplitGo [] para

/-- The transformed text of one sentence: strip the buffered fragment, condense
it, substitute synonyms over it (segmenting the condensed text). -/
def sentenceOut (tagger : Tagger) (segf : Segmenter) (syn : SynTable) (t : List Char) : String :=
  let condensed := condenseSentence tagger ⟨pyStrip t⟩
  replaceWords syn condensed (segf condensed)

/-- The optional contrast pair of one sentence with its terminal mark d:
recorded exactly when the stripped original and the replaced text are both
non-empty. -/
def sentencePairOpt (tagger : Tagger) (segf : Segmenter) (syn : SynTable)
    (t : List Char) (d : Char) : Option (List Char × List Char) :=
  let orig := pyStrip t
  let rep := (sentenceOut tagger segf syn t).data
  if orig ≠ [] ∧ rep ≠ [] then some (orig ++ [d], rep ++ [d]) else none

/-- The segment loop of process over the pieces of re.split, with the list
buffer of text fragments.  On a captured mark with non-empty buffer the
buffered sentence is processed, its replaced text plus the mark appended to
the paragraph output and its contrast pair (if any) recorded; any other
piece is appended to the buffer.  Fragments never flushed by a mark are
dropped. -/
def sentLoop (tagger : Tagger) (segf : Segmenter) (syn : SynTable) :
    List (List Char) → List (List Char) → List Char × List (List Char × List Char)
  | [], _ => ([], [])
  | sg :: rest, buffer =>
    if sg = ['。'] ∨ sg = ['！'] ∨ sg = ['？'] then
      if buffer = [] then
        sentLoop tagger segf syn rest buffer
      else
        let t := buffer.flatten
        let res := sentLoop tagger segf syn rest []
        ((sentenceOut tagger segf syn t).data ++ sg ++ res.1,
         (match sentencePairOpt tagger segf syn t (sg.headD ' ') with
          | some pr => pr :: res.2
          | none => res.2))
    else
      sentLoop tagger segf syn rest (buffer ++ [sg])

/-- The per-paragraph branch of process: a paragraph that strips to nothing
passes through as an empty line and is not scanned for sentences; any other
paragraph is split on the terminal marks and fed to the segment loop. -/
def processPara (tagger : Tagger) (segf : Segmenter) (syn : SynTable)
    (para : List Char) : List Char × List (List Char × List Char) :=
  if pyStrip para = [] then ([], [])
  else sentLoop tagger segf syn (reSplitMarks para) []

/-- ArticleProcessor.process at the character level: split into paragraphs,
process each, reassemble with line breaks; the contrast pairs of all
paragraphs are concatenated in document order. -/
def processL (tagger : Tagger) (segf : Segmenter) (syn : SynTable)
    (text : List Char) : List Char × List (List Char × List Char) :=
  let results := (splitLinesL text).map (processPara tagger segf syn)
  (joinLines (results.map Prod.fst), (results.map Prod.snd).flatten)

/-- ArticleProcessor.process: the pipeline entry point.  The contrast list is
returned only when requested. -/
def process (tagger : Tagger) (segf : Segmenter) (syn : SynTable)
    (text : String) (contrast : Bool) : String × Option (List (String × String)) :=
  let r := processL tagger segf syn text.data
  (⟨r.1⟩, if contrast then some (r.2.map (fun pr => (⟨pr.1⟩, ⟨pr.2⟩))) else none)

/-! ## Derived sentence decomposition (used to state properties of process) -/

/-- The sentences of one paragraph, as (buffered text, terminal mark) pairs:
walk the characters, cutting at every terminal mark; text after the last
mark yields no sentence. -/
def sentsGo (pending : List Char) : List Char → List (List Char × Char)
  | [] => []
  | c :: rest =>
    if isTerminalMark c then (pending, c) :: sentsGo [] rest
    else sentsGo (pending ++ [c]) rest

/-- The fused paragraph walk equivalent to re.split followed by the segment
loop. -/
def paraWalk (tagger : Tagger) (segf : Segmenter) (syn : SynTable)
    (pending : List Char) : List Char → List Char × List (List Char × List Char)
  | [] => ([], [])
  | c :: rest =>
    if isTerminalMark c then
      let res := paraWalk tagger segf syn [] rest
      ((sentenceOut tagger segf syn pending).data ++ c :: res.1,
       (match sentencePairOpt tagger segf syn pending c with
        | some pr => pr :: res.2
        | none => res.2))
    else
      paraWalk tagger segf syn (pending ++ [c]) rest

/-- All sentences of a text, in document order. -/
def sentencesOf (text : List Char) : List (List Char × Char) :=
  ((splitLinesL text).map (sentsGo [])).flatten

/-! ## Demonstration instances used by concrete statements -/

/-- The dictionary of the longest-match example. -/
def demoSyn : SynTable := [("人工智能", ["AI"]), ("智能", ["smart"])]

/-- A stub tagger satisfying the reconstruction contract: the whole input is
one token of POS category x. -/
def demoTagger : Tagger := fun s => [(s, "x")]

/-- A stub tagger satisfying the reconstruction contract that recognises the
word 电脑 as a noun. -/
def nounTagger : Tagger := fun s => if s = "电脑" then [("电脑", "n")] else [(s, "x")]

/-- A stub segmenter satisfying the reconstruction contract: the whole input
is one token, the empty input has no tokens. -/
def demoSegf : Segmenter := fun s => if s = "" then [] else [s]

/-! ## Theorems -/

/-- The category test reads exactly the first character of the tag. -/
theorem coarseIsNVA_iff (pos : String) :
    coarseIsNVA pos = true ↔ ∃ c, pos.data.head? = some c ∧ (c = 'n' ∨ c = 'v' ∨ c = 'a') := by
  unfold coarseIsNVA
  cases h : pos.data with
  | nil => simp
  | cons c cs => simp [or_assoc]

/-- **C6**: a tagged token is kept iff its coarse POS category (the first
character of its tag) is one of n, v, a and its surface form has at least two
characters, or its surface form is exactly 但是 or 然而, regardless of tag
and length. -/
theorem keep_token_iff (w pos : String) :
    keepToken w pos = true ↔
      ((∃ c, pos.data.head? = some c ∧ (c = 'n' ∨ c = 'v' ∨ c = 'a')) ∧ 2 ≤ w.length)
      ∨ w = "但是" ∨ w = "然而" := by
  rw [← coarseIsNVA_iff]
  unfold keepToken
  by_cases h1 : coarseIsNVA pos = true <;> by_cases h2 : 1 < w.length <;>
    simp [h1, h2, Nat.lt_iff_add_one_le] <;> omega

/-- **C4**: in the output-building step of the condenser, a kept token whose
immediate predecessor in the kept list is 但是 or 然而 is appended
unconditionally; any other kept token is appended iff it does not already
occur in the accumulated output.  In particular the kept tokens
问题/但是/问题 produce 问题但是问题 and 电脑/运行/电脑 produce 电脑运行. -/
theorem condense_dedup_spec (acc : List String) (prev : Option String)
    (w : String) (rest : List String) :
    ((prev = some "但是" ∨ prev = some "然而") →
        dedupAux acc prev (w :: rest) = dedupAux (acc ++ [w]) (some w) rest)
  ∧ (prev ≠ some "但是" → prev ≠ some "然而" → w ∉ acc →
        dedupAux acc prev (w :: rest) = dedupAux (acc ++ [w]) (some w) rest)
  ∧ (prev ≠ some "但是" → prev ≠ some "然而" → w ∈ acc →
        dedupAux acc prev (w :: rest) = dedupAux acc (some w) rest)
  ∧ condenseKept ["问题", "但是", "问题"] = "问题但是问题"
  ∧ condenseKept ["电脑", "运行", "电脑"] = "电脑运行" := by
  refine ⟨fun h => by simp [dedupAux, h], fun h1 h2 h3 => ?_, fun h1 h2 h3 => ?_,
    by decide, by decide⟩
  · simp [dedupAux, h1, h2, h3]
  · simp [dedupAux, h1, h2, h3]

/-- Witness for C4 at concrete inputs. -/
theorem condense_dedup_spec_witness :
    dedupAux [] (some "但是") ["问题"] = dedupAux ["问题"] (some "问题") []
  ∧ condenseKept ["电脑", "运行", "电脑"] = "电脑运行" :=
  ⟨(condense_dedup_spec [] (some "但是") "问题" []).1 (Or.inl rfl),
   (condense_dedup_spec [] none "" []).2.2.2.2⟩

/-- **C10**: the force-append decision looks at the predecessor in the kept
list, not at the accumulated output: after a kept 但是 or 然而 the next
token is appended whatever the accumulated output contains (even when the
connector itself was dropped from it as a duplicate).  In particular the
kept tokens 问题/但是/问题/但是/问题 produce 问题但是问题问题. -/
theorem condense_connector_prev_spec (acc : List String) (w : String)
    (rest : List String) :
    dedupAux acc (some "但是") (w :: rest) = dedupAux (acc ++ [w]) (some w) rest
  ∧ dedupAux acc (some "然而") (w :: rest) = dedupAux (acc ++ [w]) (some w) rest
  ∧ condenseKept ["问题", "但是", "问题", "但是", "问题"] = "问题但是问题问题" :=
  ⟨by simp [dedupAux], by simp [dedupAux], by decide⟩

/-- The empty table makes the word loop emit every token unchanged. -/
theorem replaceGo_nil_syn (text : String) :
    ∀ (words : List String) (idx : Nat), replaceGo [] text words idx = words := by
  intro words
  induction words with
  | nil => intro idx; rfl
  | cons w rest ih => intro idx; simp [replaceGo, lookupSyn, ih]

/-- **C7**: with an empty synonym table, substitution is the identity on any
text, assuming the tokenizer contract that the concatenation of the
segmentation reproduces the text. -/
theorem empty_table_identity (text : String) (words : List String)
    (h : String.join words = text) :
    replaceWords [] text words = text := by
  unfold replaceWords
  rw [replaceGo_nil_syn]
  exact h

/-- Witness for C7 at a concrete segmentation. -/
theorem empty_table_identity_witness :
    String.join ["猫", "吃鱼"] = "猫吃鱼" ∧ replaceWords [] "猫吃鱼" ["猫", "吃鱼"] = "猫吃鱼" :=
  ⟨by decide, empty_table_identity "猫吃鱼" ["猫", "吃鱼"] (by decide)⟩

instance : IsTotal String (fun a b => b.length ≤ a.length) :=
  ⟨fun a b => Nat.le_total b.length a.length⟩

instance : IsTrans String (fun a b => b.length ≤ a.length) :=
  ⟨fun _ _ _ hab hbc => Nat.le_trans hbc hab⟩

/-- In a list sorted by descending length, the first element satisfying a
predicate is at least as long as every element satisfying it. -/
theorem find_sorted_max (l : List String) (p : String → Bool) (k : String)
    (hsort : l.Sorted (fun a b => b.length ≤ a.length))
    (hfind : l.find? p = some k) :
    ∀ x ∈ l, p x = true → x.length ≤ k.length := by
  induction l with
  | nil => cases hfind
  | cons a t ih =>
    intro x hx hpx
    by_cases hpa : p a = true
    · rw [List.find?_cons_of_pos _ hpa] at hfind
      obtain rfl : a = k := by injection hfind
      rcases List.mem_cons.mp hx with rfl | hxt
      · exact le_refl _
      · exact List.rel_of_sorted_cons hsort x hxt
    · rw [List.find?_cons_of_neg _ hpa] at hfind
      rcases List.mem_cons.mp hx with rfl | hxt
      · exact absurd hpx hpa
      · exact ih hsort.of_cons hfind x hxt hpx

/-- **C1**: the word loop of the substitutor.  A token that is no table key is
emitted unchanged and advances the cursor by its own length.  A token that is
a key triggers a scan of the keys in descending length order: when some key
matches the text at the cursor, the first such key is a longest matching key,
its first replacement is emitted and the cursor advances by that key's
length; when no key matches at the cursor, the token's own first replacement
is emitted and the cursor advances by the token's length.  With the table
人工智能→AI, 智能→smart and the condensed text 人工智能很强 segmented with
人工智能 kept as one token, the result is AI很强. -/
theorem replace_words_spec (syn : SynTable) (text : String) (w : String)
    (rest : List String) (idx : Nat) :
    (lookupSyn syn w = none →
        replaceGo syn text (w :: rest) idx = w :: replaceGo syn text rest (idx + w.length))
  ∧ (∀ l, lookupSyn syn w = some l → ∀ k, findLongest syn text idx = some k →
        startsWithAt text k idx = true
      ∧ k ∈ synKeys syn
      ∧ (∀ k2, k2 ∈ synKeys syn → startsWithAt text k2 idx = true → k2.length ≤ k.length)
      ∧ replaceGo syn text (w :: rest) idx = firstRepl syn k :: replaceGo syn text rest (idx + k.length))
  ∧ (∀ l, lookupSyn syn w = some l → findLongest syn text idx = none →
        replaceGo syn text (w :: rest) idx = l.headD "" :: replaceGo syn text rest (idx + w.length))
  ∧ replaceWords demoSyn "人工智能很强" ["人工智能", "很", "强"] = "AI很强" := by
  refine ⟨fun h => by simp [replaceGo, h], fun l hl k hk => ?_,
    fun l hl hk => by simp [replaceGo, hl, hk], by decide⟩
  have hsorted : (sortedKeys syn).Sorted (fun a b => b.length ≤ a.length) :=
    List.sorted_insertionSort _ _
  have hperm : List.Perm (sortedKeys syn) (synKeys syn) := List.perm_insertionSort _ _
  have hk2 : (sortedKeys syn).find? (fun k => startsWithAt text k idx) = some k := hk
  refine ⟨by simpa using List.find?_some hk2,
    hperm.mem_iff.mp (List.mem_of_find?_eq_some hk2), ?_, by simp [replaceGo, hl, hk]⟩
  intro k2 hk2m hs2
  exact find_sorted_max _ _ _ hsorted hk2 k2 (hperm.mem_iff.mpr hk2m) hs2

/-- Witness for C1: the longest-match example evaluated through the theorem. -/
theorem replace_words_spec_witness :
    replaceWords demoSyn "人工智能很强" ["人工智能", "很", "强"] = "AI很强" :=
  (replace_words_spec [] "" "" [] 0).2.2.2

/-- **C2, counterexample**: a source that yields one well-formed line and then
fails at the I/O level does not make construction fail — the error is caught
and swallowed (only shown in a message box) — and the entry read before the
failure is retained and consulted by substitution. -/
theorem dict_load_counterexample :
    loadSynonymsResult ["电脑 计算机"] true = Except.ok [("电脑", ["计算机"])]
  ∧ replaceWords (loadSynonyms ["电脑 计算机"]) "电脑" ["电脑"] = "计算机" := by
  constructor
  · rfl
  · decide

/-- **C2, amended**: when the dictionary source fails at the I/O level, the
error is caught and surfaced only as a user-visible message; pipeline
construction always completes with the (possibly partial) table built from
the lines read before the failure, and those entries are consulted by later
substitution. -/
theorem dict_load_amended (lines : List String) (err : Bool) :
    loadSynonymsResult lines err = Except.ok (loadSynonyms lines)
  ∧ (∀ e, loadSynonymsResult lines err ≠ Except.error e)
  ∧ replaceWords (loadSynonyms ["电脑 计算机", "好 棒"]) "电脑" ["电脑"] = "计算机" := by
  refine ⟨rfl, ?_, by decide⟩
  intro e h
  simp [loadSynonymsResult] at h

/-- Every match of the first branch consumes at least one character. -/
theorem matchDang_pos (cs : List Char) (n : Nat) (h : matchDang cs = some n) : 1 ≤ n := by
  rcases cs with _ | ⟨c, rest⟩
  · simp [matchDang] at h
  · simp only [matchDang] at h
    repeat' split at h
    all_goals cases h
    all_goals omega

/-- Every match of the second branch consumes at least one character. -/
theorem matchJinguan_pos (cs : List Char) (n : Nat) (h : matchJinguan cs = some n) : 1 ≤ n := by
  rcases cs with _ | ⟨c1, _ | ⟨c2, rest⟩⟩
  · simp [matchJinguan] at h
  · simp [matchJinguan] at h
  · simp only [matchJinguan] at h
    repeat' split at h
    all_goals cases h
    all_goals omega

/-- Every match of the third branch consumes at least one character. -/
theorem matchSuiran_pos (cs : List Char) (n : Nat) (h : matchSuiran cs = some n) : 1 ≤ n := by
  rcases cs with _ | ⟨c1, _ | ⟨c2, rest⟩⟩
  · simp [matchSuiran] at h
  · simp [matchSuiran] at h
  · simp only [matchSuiran] at h
    repeat' split at h
    all_goals cases h
    all_goals omega

/-- Every match of the whole pattern consumes at least one character. -/
theorem tryMatchAt_pos (cs : List Char) (n : Nat) (h : tryMatchAt cs = some n) : 1 ≤ n := by
  unfold tryMatchAt at h
  rcases hd : matchDang cs with _ | m <;> rw [hd] at h
  · rcases hj : matchJinguan cs with _ | m2 <;> rw [hj] at h
    · rcases hs : matchSuiran cs with _ | m3 <;> rw [hs] at h
      · cases h
      · simp [Option.orElse] at h
        exact h ▸ matchSuiran_pos cs m3 hs
    · simp [Option.orElse] at h
      exact h ▸ matchJinguan_pos cs m2 hj
  · simp [Option.orElse] at h
    exact h ▸ matchDang_pos cs m hd

/-- The empty input has no match. -/
theorem tryMatchAt_nil : tryMatchAt [] = none := rfl

/-- Any fuel at least the length of the input computes the substitution. -/
theorem regexSubAux_eq_stripL : ∀ (fuel : Nat) (cs : List Char), cs.length ≤ fuel →
    regexSubAux fuel cs = stripL cs := by
  intro fuel
  induction fuel using Nat.strong_induction_on with
  | _ fuel ih =>
    intro cs hlen
    rcases Nat.eq_or_lt_of_le hlen with heq | hlt
    · rw [stripL, heq]
    · rcases fuel with _ | g
      · omega
      · have hg : cs.length ≤ g := by omega
        rcases cs with _ | ⟨c, rest⟩
        · simp [regexSubAux, stripL, tryMatchAt_nil]
        · have hrest : rest.length ≤ g := by
            simp only [List.length_cons] at hg; omega
          rcases hm : tryMatchAt (c :: rest) with _ | n
          · rw [show regexSubAux (g + 1) (c :: rest) = c :: regexSubAux g rest from by
              simp [regexSubAux, hm]]
            rw [show stripL (c :: rest) = c :: regexSubAux rest.length rest from by
              simp [stripL, regexSubAux, hm]]
            rw [ih g (by omega) rest hrest]
            rfl
          · have hn := tryMatchAt_pos _ _ hm
            have hdrop : ((c :: rest).drop n).length ≤ rest.length := by
              simp only [List.length_drop, List.length_cons]; omega
            rw [show regexSubAux (g + 1) (c :: rest) = regexSubAux g ((c :: rest).drop n) from by
              simp [regexSubAux, hm]]
            rw [show stripL (c :: rest) = regexSubAux rest.length ((c :: rest).drop n) from by
              simp [stripL, regexSubAux, hm]]
            rw [ih g (by omega) _ (le_trans hdrop hrest),
              ih rest.length (by omega) _ hdrop]

/-- One substitution step: when the pattern matches at the head, the match
is deleted and stripping continues after it. -/
theorem stripL_step (cs : List Char) (n : Nat) (h : tryMatchAt cs = some n) :
    stripL cs = stripL (cs.drop n) := by
  have hn := tryMatchAt_pos _ _ h
  have hne : cs ≠ [] := by
    intro hnil
    rw [hnil, tryMatchAt_nil] at h
    cases h
  have h1 : cs.length = (cs.length - 1) + 1 := by
    rcases cs with _ | ⟨a, b⟩
    · exact absurd rfl hne
    · simp
  rw [stripL, h1]
  simp only [regexSubAux, h]
  exact regexSubAux_eq_stripL _ _ (by simp only [List.length_drop]; omega)


/-- The lazy search finds the first occurrence of 时. -/
theorem lazyFind_shi (m rest : List Char) (h1 : '时' ∉ m) (h2 : '\n' ∉ m) :
    lazyFind ['时'] (m ++ '时' :: rest) = some m.length := by
  induction m with
  | nil => simp [lazyFind, List.isPrefixOf]
  | cons c t ih =>
    have hc1 : c ≠ '时' := fun hh => h1 (hh ▸ List.mem_cons_self c t)
    have hc2 : c ≠ '\n' := fun hh => h2 (hh ▸ List.mem_cons_self c t)
    have ht1 : '时' ∉ t := fun hh => h1 (List.mem_cons_of_mem c hh)
    have ht2 : '\n' ∉ t := fun hh => h2 (List.mem_cons_of_mem c hh)
    simp [lazyFind, List.isPrefixOf, hc1, hc2, ih ht1 ht2, Ne.symm hc1]

/-- The lazy search finds the first occurrence of 但是. -/
theorem lazyFind_danshi (m rest : List Char) (h1 : '但' ∉ m) (h2 : '\n' ∉ m) :
    lazyFind ['但', '是'] (m ++ '但' :: '是' :: rest) = some m.length := by
  induction m with
  | nil => simp [lazyFind, List.isPrefixOf]
  | cons c t ih =>
    have hc1 : c ≠ '但' := fun hh => h1 (hh ▸ List.mem_cons_self c t)
    have hc2 : c ≠ '\n' := fun hh => h2 (hh ▸ List.mem_cons_self c t)
    have ht1 : '但' ∉ t := fun hh => h1 (List.mem_cons_of_mem c hh)
    have ht2 : '\n' ∉ t := fun hh => h2 (List.mem_cons_of_mem c hh)
    simp [lazyFind, List.isPrefixOf, hc1, hc2, ih ht1 ht2, Ne.symm hc1]


/-- The first branch matches 当…时 up to the first 时, plus a following comma. -/
theorem matchDang_comma (m r : List Char) (h1 : '时' ∉ m) (h2 : '\n' ∉ m) :
    matchDang ('当' :: m ++ '时' :: '，' :: r) = some (m.length + 3) := by
  have hd : (m ++ '时' :: '，' :: r).drop (m.length + 1) = '，' :: r := by
    rw [show m ++ '时' :: '，' :: r = (m ++ ['时']) ++ '，' :: r by simp]
    rw [show m.length + 1 = (m ++ ['时']).length by simp]
    exact List.drop_left _ _
  simp [matchDang, lazyFind_shi m ('，' :: r) h1 h2, hd]

/-- The first branch matches 当…时 up to the first 时 when no comma follows. -/
theorem matchDang_nocomma (m r : List Char) (h1 : '时' ∉ m) (h2 : '\n' ∉ m)
    (h3 : r.head? ≠ some '，') :
    matchDang ('当' :: m ++ '时' :: r) = some (m.length + 2) := by
  have hd : (m ++ '时' :: r).drop (m.length + 1) = r := by
    rw [show m ++ '时' :: r = (m ++ ['时']) ++ r by simp]
    rw [show m.length + 1 = (m ++ ['时']).length by simp]
    exact List.drop_left _ _
  rcases hr : r.head? with _ | c3
  · simp [matchDang, lazyFind_shi m r h1 h2, hd, hr]
  · have hc3 : c3 ≠ '，' := by
      intro hh
      exact h3 (hh ▸ hr)
    simp [matchDang, lazyFind_shi m r h1 h2, hd, hr, hc3]

/-- The second branch consumes exactly 尽管 plus an immediately following comma. -/
theorem matchJinguan_comma (r : List Char) :
    matchJinguan ('尽' :: '管' :: '，' :: r) = some 3 := by
  simp [matchJinguan]

/-- The second branch consumes exactly the two characters 尽管 when no comma
follows: the lazy middle matches the empty string because the trailing comma
is optional. -/
theorem matchJinguan_nocomma (r : List Char) (h3 : r.head? ≠ some '，') :
    matchJinguan ('尽' :: '管' :: r) = some 2 := by
  rcases hr : r.head? with _ | c3
  · simp [matchJinguan, hr]
  · have hc3 : c3 ≠ '，' := by
      intro hh
      exact h3 (hh ▸ hr)
    simp [matchJinguan, hr, hc3]

/-- The third branch matches 虽然…但是 up to the first 但是, connector included. -/
theorem matchSuiran_shape (m r : List Char) (h1 : '但' ∉ m) (h2 : '\n' ∉ m) :
    matchSuiran ('虽' :: '然' :: m ++ '但' :: '是' :: r) = some (m.length + 4) := by
  simp [matchSuiran, lazyFind_danshi m r h1 h2]

/-- A 当-branch match is the overall match. -/
theorem tryMatchAt_of_dang (cs : List Char) (v : Nat) (h : matchDang cs = some v) :
    tryMatchAt cs = some v := by
  simp [tryMatchAt, h, Option.orElse]

/-- A 尽管-branch match is the overall match when the 当 branch cannot fire. -/
theorem tryMatchAt_of_jinguan (c1 c2 : Char) (rest : List Char) (v : Nat)
    (hc : c1 ≠ '当') (h : matchJinguan (c1 :: c2 :: rest) = some v) :
    tryMatchAt (c1 :: c2 :: rest) = some v := by
  have hd : matchDang (c1 :: c2 :: rest) = none := by
    rcases hl : lazyFind ['时'] (c2 :: rest) with _ | k <;> simp [matchDang, hc, hl]
  simp [tryMatchAt, hd, h, Option.orElse]

/-- A 虽然-branch match is the overall match when the earlier branches cannot
fire. -/
theorem tryMatchAt_of_suiran (c1 c2 : Char) (rest : List Char) (v : Nat)
    (hc : c1 ≠ '当') (hj : ¬(c1 = '尽' ∧ c2 = '管'))
    (h : matchSuiran (c1 :: c2 :: rest) = some v) :
    tryMatchAt (c1 :: c2 :: rest) = some v := by
  have hd : matchDang (c1 :: c2 :: rest) = none := by
    rcases hl : lazyFind ['时'] (c2 :: rest) with _ | k <;> simp [matchDang, hc, hl]
  have hjn : matchJinguan (c1 :: c2 :: rest) = none := by
    simp [matchJinguan, hj]
  simp [tryMatchAt, hd, hjn, h, Option.orElse]


/-- **C3, amended**: the stripper deletes, with non-greedy matching in one
left-to-right pass and no replacement text, every span 当…时 (up to the
first 时) together with one optionally following comma, every occurrence of
the literal 尽管 together with at most one immediately following comma (the
non-greedy middle of 尽管.*?，? matches the empty string because the
trailing comma is optional, so the span up to a later comma is NOT removed),
and every span 虽然…但是 up to and including the first 但是.  The output
may be empty. -/
theorem strip_clauses_amended (m r : List Char) :
    ('时' ∉ m → '\n' ∉ m →
        stripL ('当' :: m ++ '时' :: '，' :: r) = stripL r)
  ∧ ('时' ∉ m → '\n' ∉ m → r.head? ≠ some '，' →
        stripL ('当' :: m ++ '时' :: r) = stripL r)
  ∧ stripL ('尽' :: '管' :: '，' :: r) = stripL r
  ∧ (r.head? ≠ some '，' → stripL ('尽' :: '管' :: r) = stripL r)
  ∧ ('但' ∉ m → '\n' ∉ m →
        stripL ('虽' :: '然' :: m ++ '但' :: '是' :: r) = stripL r)
  ∧ stripClauses "当天气晴朗时，他出门了。" = "他出门了。"
  ∧ stripClauses "虽然很累但是" = "" := by
  refine ⟨fun h1 h2 => ?_, fun h1 h2 h3 => ?_, ?_, fun h3 => ?_, fun h1 h2 => ?_,
    by decide, by decide⟩
  · rw [stripL_step _ _ (tryMatchAt_of_dang _ _ (matchDang_comma m r h1 h2))]
    congr 1
    rw [show '当' :: m ++ '时' :: '，' :: r = ('当' :: m ++ ['时', '，']) ++ r by simp]
    rw [show m.length + 3 = ('当' :: m ++ ['时', '，']).length by simp]
    exact List.drop_left _ _
  · rw [stripL_step _ _ (tryMatchAt_of_dang _ _ (matchDang_nocomma m r h1 h2 h3))]
    congr 1
    rw [show '当' :: m ++ '时' :: r = ('当' :: m ++ ['时']) ++ r by simp]
    rw [show m.length + 2 = ('当' :: m ++ ['时']).length by simp]
    exact List.drop_left _ _
  · rw [stripL_step _ _ (tryMatchAt_of_jinguan '尽' '管' ('，' :: r) 3 (by decide)
      (matchJinguan_comma r))]
    rfl
  · rw [stripL_step _ _ (tryMatchAt_of_jinguan '尽' '管' r 2 (by decide)
      (matchJinguan_nocomma r h3))]
    rfl
  · simp only [List.cons_append]
    rw [stripL_step _ _ (tryMatchAt_of_suiran '虽' '然' (m ++ '但' :: '是' :: r)
      (m.length + 4) (by decide) (by decide) (matchSuiran_shape m r h1 h2))]
    congr 1
    rw [show '虽' :: '然' :: (m ++ '但' :: '是' :: r) = (('虽' :: '然' :: m) ++ ['但', '是']) ++ r by simp]
    rw [show m.length + 4 = (('虽' :: '然' :: m) ++ ['但', '是']).length by simp]
    exact List.drop_left _ _

/-- **C3, counterexample**: on 尽管下雨，他出门了。 the code deletes only the
literal 尽管, not the whole span through the comma, so the output is
下雨，他出门了。 and not 他出门了。 as the claim requires. -/
theorem strip_jinguan_counterexample :
    stripClauses "尽管下雨，他出门了。" = "下雨，他出门了。"
  ∧ stripClauses "尽管下雨，他出门了。" ≠ "他出门了。" := ⟨by decide, by decide⟩

/-- Witness for the amended C3 at a concrete clause. -/
theorem strip_clauses_amended_witness :
    ('时' ∉ "天气晴朗".data ∧ '\n' ∉ "天气晴朗".data)
  ∧ stripL ('当' :: "天气晴朗".data ++ '时' :: '，' :: "他出门了。".data) = stripL "他出门了。".data :=
  ⟨by decide, (strip_clauses_amended "天气晴朗".data "他出门了。".data).1 (by decide) (by decide)⟩

/-- A terminal mark is one of the three characters. -/
theorem mark_cases (c : Char) (h : isTerminalMark c = true) :
    c = '。' ∨ c = '！' ∨ c = '？' := by
  simp [isTerminalMark] at h
  tauto

/-- Whitespace characters are not terminal marks. -/
theorem ws_not_mark (c : Char) (h : c.isWhitespace = true) : isTerminalMark c = false := by
  simp [Char.isWhitespace] at h
  rcases h with ⟨h1, h2⟩ | h | h <;> subst_eqs <;> rfl

/-- A paragraph that strips to nothing is all whitespace. -/
theorem pyStrip_nil_ws (cs : List Char) (h : pyStrip cs = []) :
    ∀ c ∈ cs, c.isWhitespace = true := by
  intro c hc
  unfold pyStrip at h
  rw [List.reverse_eq_nil_iff, List.dropWhile_eq_nil_iff] at h
  by_cases hw : c.isWhitespace = true
  · exact hw
  · exfalso
    have hsplit : c ∈ cs.takeWhile Char.isWhitespace ++ cs.dropWhile Char.isWhitespace := by
      rw [List.takeWhile_append_dropWhile]
      exact hc
    have hc2 : c ∈ cs.dropWhile Char.isWhitespace := by
      rcases List.mem_append.mp hsplit with h1 | h1
      · exact absurd (List.mem_takeWhile_imp h1) hw
      · exact h1
    exact hw (h c (by simpa using hc2))

/-- A fragment without terminal marks produces no sentence. -/
theorem sentsGo_noMarks (cs : List Char) :
    (∀ c ∈ cs, isTerminalMark c = false) → ∀ pending, sentsGo pending cs = [] := by
  induction cs with
  | nil => intro _ _; rfl
  | cons c rest ih =>
    intro h pending
    have hc : isTerminalMark c = false := h c (List.mem_cons_self c rest)
    simp [sentsGo, hc, ih (fun x hx => h x (List.mem_cons_of_mem c hx))]

/-- A non-mark piece is appended to the buffer. -/
theorem sentLoop_cons_text (tagger : Tagger) (segf : Segmenter) (syn : SynTable)
    (sg : List Char) (rest : List (List Char)) (buffer : List (List Char))
    (hsg : ¬(sg = ['。'] ∨ sg = ['！'] ∨ sg = ['？'])) :
    sentLoop tagger segf syn (sg :: rest) buffer =
      sentLoop tagger segf syn rest (buffer ++ [sg]) := by
  simp [sentLoop, hsg]

/-- A captured mark with a non-empty buffer flushes the buffered sentence. -/
theorem sentLoop_cons_mark (tagger : Tagger) (segf : Segmenter) (syn : SynTable)
    (sg : List Char) (rest : List (List Char)) (buffer : List (List Char))
    (hsg : sg = ['。'] ∨ sg = ['！'] ∨ sg = ['？']) (hbuf : buffer ≠ []) :
    sentLoop tagger segf syn (sg :: rest) buffer =
      ((sentenceOut tagger segf syn buffer.flatten).data ++ sg ++
        (sentLoop tagger segf syn rest []).1,
       match sentencePairOpt tagger segf syn buffer.flatten (sg.headD ' ') with
       | some pr => pr :: (sentLoop tagger segf syn rest []).2
       | none => (sentLoop tagger segf syn rest []).2) := by
  simp only [sentLoop, if_pos hsg, if_neg hbuf]

/-- re.split at a terminal mark emits the pending text and the mark. -/
theorem reSplitGo_mark (acc : List Char) (c : Char) (rest : List Char)
    (h : isTerminalMark c = true) :
    reSplitGo acc (c :: rest) = acc.reverse :: [c] :: reSplitGo [] rest := by
  simp [reSplitGo, h]

/-- re.split accumulates non-mark characters. -/
theorem reSplitGo_text (acc : List Char) (c : Char) (rest : List Char)
    (h : isTerminalMark c = false) :
    reSplitGo acc (c :: rest) = reSplitGo (c :: acc) rest := by
  simp [reSplitGo, h]

/-- The fused walk at a terminal mark. -/
theorem paraWalk_mark (tagger : Tagger) (segf : Segmenter) (syn : SynTable)
    (pending : List Char) (c : Char) (rest : List Char) (h : isTerminalMark c = true) :
    paraWalk tagger segf syn pending (c :: rest) =
      ((sentenceOut tagger segf syn pending).data ++
        c :: (paraWalk tagger segf syn [] rest).1,
       match sentencePairOpt tagger segf syn pending c with
       | some pr => pr :: (paraWalk tagger segf syn [] rest).2
       | none => (paraWalk tagger segf syn [] rest).2) := by
  simp only [paraWalk, if_pos h]

/-- The fused walk at an ordinary character. -/
theorem paraWalk_text (tagger : Tagger) (segf : Segmenter) (syn : SynTable)
    (pending : List Char) (c : Char) (rest : List Char) (h : isTerminalMark c = false) :
    paraWalk tagger segf syn pending (c :: rest) =
      paraWalk tagger segf syn (pending ++ [c]) rest := by
  simp [paraWalk, h]

/-- A mark-free accumulator never reverses into a captured-mark piece. -/
theorem not_mark_singleton (acc : List Char) (hacc : ∀ c ∈ acc, isTerminalMark c = false) :
    ¬(acc.reverse = ['。'] ∨ acc.reverse = ['！'] ∨ acc.reverse = ['？']) := by
  rintro (h | h | h) <;>
    · have hmem : _ ∈ acc := List.mem_reverse.mp (h ▸ List.mem_cons_self _ [])
      have := hacc _ hmem
      simp [isTerminalMark] at this

/-- The segment loop over the re.split pieces equals the fused character walk. -/
theorem sentLoop_eq_paraWalk (tagger : Tagger) (segf : Segmenter) (syn : SynTable) :
    ∀ (cs acc : List Char) (buffer : List (List Char)),
      (∀ c ∈ acc, isTerminalMark c = false) →
      sentLoop tagger segf syn (reSplitGo acc cs) buffer =
        paraWalk tagger segf syn (buffer.flatten ++ acc.reverse) cs := by
  intro cs
  induction cs with
  | nil =>
    intro acc buffer hacc
    rw [show reSplitGo acc [] = [acc.reverse] from rfl]
    rw [sentLoop_cons_text tagger segf syn _ _ _ (not_mark_singleton acc hacc)]
    rfl
  | cons c rest ih =>
    intro acc buffer hacc
    by_cases hm : isTerminalMark c = true
    · have hd : [c] = ['。'] ∨ [c] = ['！'] ∨ [c] = ['？'] := by
        rcases mark_cases c hm with h | h | h <;> simp [h]
      rw [reSplitGo_mark acc c rest hm]
      rw [sentLoop_cons_text tagger segf syn _ _ _ (not_mark_singleton acc hacc)]
      rw [sentLoop_cons_mark tagger segf syn _ _ _ hd (by simp)]
      rw [ih [] [] (by intro x hx; cases hx)]
      rw [paraWalk_mark tagger segf syn _ c rest hm]
      simp
    · have hc : isTerminalMark c = false := by
        rcases hb : isTerminalMark c with _ | _
        · rfl
        · exact absurd hb hm
      rw [reSplitGo_text acc c rest hc]
      rw [ih (c :: acc) buffer (by
        intro x hx
        rcases List.mem_cons.mp hx with rfl | hx2
        · exact hc
        · exact hacc x hx2)]
      rw [paraWalk_text tagger segf syn _ c rest hc]
      simp

/-- Sentence decomposition at a terminal mark. -/
theorem sentsGo_mark (pending : List Char) (c : Char) (rest : List Char)
    (h : isTerminalMark c = true) :
    sentsGo pending (c :: rest) = (pending, c) :: sentsGo [] rest := by
  simp [sentsGo, h]

/-- Sentence decomposition at an ordinary character. -/
theorem sentsGo_text (pending : List Char) (c : Char) (rest : List Char)
    (h : isTerminalMark c = false) :
    sentsGo pending (c :: rest) = sentsGo (pending ++ [c]) rest := by
  simp [sentsGo, h]

/-- A boolean that is not true is false. -/
theorem bool_eq_false_of_ne_true (b : Bool) (h : ¬ b = true) : b = false := by
  rcases hb : b with _ | _
  · rfl
  · exact absurd hb h

/-- The paragraph walk produces exactly one processed piece and one optional
contrast pair per sentence of the paragraph. -/
theorem paraWalk_eq (tagger : Tagger) (segf : Segmenter) (syn : SynTable) :
    ∀ (cs pending : List Char),
      paraWalk tagger segf syn pending cs =
        (((sentsGo pending cs).map (fun td =>
            (sentenceOut tagger segf syn td.1).data ++ [td.2])).flatten,
         (sentsGo pending cs).filterMap (fun td =>
            sentencePairOpt tagger segf syn td.1 td.2)) := by
  intro cs
  induction cs with
  | nil => intro pending; rfl
  | cons c rest ih =>
    intro pending
    by_cases hm : isTerminalMark c = true
    · rw [paraWalk_mark tagger segf syn _ c rest hm, sentsGo_mark pending c rest hm, ih []]
      simp [List.filterMap_cons]
      rcases sentencePairOpt tagger segf syn pending c with _ | pr <;> simp
    · have hc := bool_eq_false_of_ne_true _ hm
      rw [paraWalk_text tagger segf syn _ c rest hc, sentsGo_text pending c rest hc, ih]

/-- The per-paragraph branch of process, expressed over the sentence
decomposition: both for blank paragraphs (which have no sentences) and for
scanned ones. -/
theorem processPara_eq (tagger : Tagger) (segf : Segmenter) (syn : SynTable)
    (para : List Char) :
    processPara tagger segf syn para =
      (((sentsGo [] para).map (fun td =>
          (sentenceOut tagger segf syn td.1).data ++ [td.2])).flatten,
       (sentsGo [] para).filterMap (fun td =>
          sentencePairOpt tagger segf syn td.1 td.2)) := by
  unfold processPara
  by_cases h : pyStrip para = []
  · rw [if_pos h]
    have hnm : ∀ c ∈ para, isTerminalMark c = false := fun c hc =>
      ws_not_mark c (pyStrip_nil_ws para h c hc)
    rw [sentsGo_noMarks para hnm []]
    rfl
  · rw [if_neg h]
    rw [show reSplitMarks para = reSplitGo [] para from rfl]
    rw [sentLoop_eq_paraWalk tagger segf syn para [] [] (by intro x hx; cases hx)]
    simpa using paraWalk_eq tagger segf syn para []

/-- A paragraph has exactly one sentence per terminal mark. -/
theorem sentsGo_length : ∀ (cs pending : List Char),
    (sentsGo pending cs).length = cs.countP (fun c => isTerminalMark c) := by
  intro cs
  induction cs with
  | nil => intro pending; rfl
  | cons c rest ih =>
    intro pending
    by_cases hm : isTerminalMark c = true
    · rw [sentsGo_mark pending c rest hm]
      simp [List.countP_cons, hm, ih []]
    · have hc := bool_eq_false_of_ne_true _ hm
      rw [sentsGo_text pending c rest hc]
      simp [List.countP_cons, hc, ih]

/-- Appending mark-free text changes no sentence. -/
theorem sentsGo_append_noMarks (tr : List Char)
    (htr : ∀ c ∈ tr, isTerminalMark c = false) :
    ∀ (cs pending : List Char), sentsGo pending (cs ++ tr) = sentsGo pending cs := by
  intro cs
  induction cs with
  | nil =>
    intro pending
    rw [List.nil_append, sentsGo_noMarks tr htr pending]
    rfl
  | cons c rest ih =>
    intro pending
    by_cases hm : isTerminalMark c = true
    · rw [List.cons_append, sentsGo_mark pending c _ hm, sentsGo_mark pending c rest hm, ih []]
    · have hc := bool_eq_false_of_ne_true _ hm
      rw [List.cons_append, sentsGo_text pending c _ hc, sentsGo_text pending c rest hc, ih]

/-- Every sentence ends in a terminal mark and its text consists of non-mark
characters of the paragraph. -/
theorem sentsGo_chars : ∀ (cs pending : List Char),
    (∀ c ∈ pending, isTerminalMark c = false) →
    ∀ td ∈ sentsGo pending cs,
      isTerminalMark td.2 = true ∧
      ∀ c ∈ td.1, isTerminalMark c = false ∧ (c ∈ pending ∨ c ∈ cs) := by
  intro cs
  induction cs with
  | nil => intro pending _ td htd; cases htd
  | cons c rest ih =>
    intro pending hpend td htd
    by_cases hm : isTerminalMark c = true
    · rw [sentsGo_mark pending c rest hm] at htd
      rcases List.mem_cons.mp htd with rfl | htd2
      · exact ⟨hm, fun x hx => ⟨hpend x hx, Or.inl hx⟩⟩
      · have := ih [] (by intro x hx; cases hx) td htd2
        refine ⟨this.1, fun x hx => ⟨(this.2 x hx).1, ?_⟩⟩
        rcases (this.2 x hx).2 with h0 | h0
        · cases h0
        · exact Or.inr (List.mem_cons_of_mem c h0)
    · have hc := bool_eq_false_of_ne_true _ hm
      rw [sentsGo_text pending c rest hc] at htd
      have := ih (pending ++ [c]) (by
        intro x hx
        rcases List.mem_append.mp hx with h0 | h0
        · exact hpend x h0
        · rw [List.mem_singleton.mp h0]; exact hc) td htd
      refine ⟨this.1, fun x hx => ⟨(this.2 x hx).1, ?_⟩⟩
      rcases (this.2 x hx).2 with h0 | h0
      · rcases List.mem_append.mp h0 with h1 | h1
        · exact Or.inl h1
        · exact Or.inr (List.mem_cons.mpr (Or.inl (List.mem_singleton.mp h1)))
      · exact Or.inr (List.mem_cons_of_mem c h0)

/-- Folding string append concatenates the character lists. -/
theorem foldl_append_data : ∀ (l : List String) (a : String),
    (l.foldl (fun r s => r ++ s) a).data = a.data ++ (l.map String.data).flatten := by
  intro l
  induction l with
  | nil => intro a; simp
  | cons s t ih =>
    intro a
    rw [List.foldl_cons, ih]
    simp

/-- The characters of a joined list of strings. -/
theorem joinData (l : List String) :
    (String.join l).data = (l.map String.data).flatten := by
  rw [String.join, foldl_append_data]
  rfl

/-- Joining one string is that string. -/
theorem join_singleton (s : String) : String.join [s] = s := by
  apply String.ext
  rw [joinData]
  simp

/-- The stripped sentence only contains characters of the input. -/
theorem regexSubAux_chars : ∀ (fuel : Nat) (cs : List Char) (c : Char),
    c ∈ regexSubAux fuel cs → c ∈ cs := by
  intro fuel
  induction fuel with
  | zero => intro cs c h; exact h
  | succ g ih =>
    intro cs c h
    rcases hm : tryMatchAt cs with _ | n
    · rcases cs with _ | ⟨x, rest⟩
      · simp [regexSubAux, hm] at h
      · rw [show regexSubAux (g + 1) (x :: rest) = x :: regexSubAux g rest from by
          simp [regexSubAux, hm]] at h
        rcases List.mem_cons.mp h with rfl | h2
        · exact List.mem_cons_self c rest
        · exact List.mem_cons_of_mem x (ih rest c h2)
    · rw [show regexSubAux (g + 1) cs = regexSubAux g (cs.drop n) from by
        simp [regexSubAux, hm]] at h
      exact List.mem_of_mem_drop (ih _ c h)

/-- Clause stripping never introduces characters. -/
theorem stripL_chars (cs : List Char) (c : Char) (h : c ∈ stripL cs) : c ∈ cs :=
  regexSubAux_chars cs.length cs c h

/-- The de-duplicated output only contains accumulated or kept tokens. -/
theorem dedupAux_mem : ∀ (l acc : List String) (prev : Option String) (x : String),
    x ∈ dedupAux acc prev l → x ∈ acc ∨ x ∈ l := by
  intro l
  induction l with
  | nil => intro acc prev x h; exact Or.inl h
  | cons w rest ih =>
    intro acc prev x h
    rw [dedupAux] at h
    split at h
    · rcases ih _ _ _ h with h2 | h2
      · rcases List.mem_append.mp h2 with h3 | h3
        · exact Or.inl h3
        · exact Or.inr (List.mem_cons.mpr (Or.inl (List.mem_singleton.mp h3)))
      · exact Or.inr (List.mem_cons_of_mem w h2)
    · split at h
      · rcases ih _ _ _ h with h2 | h2
        · exact Or.inl h2
        · exact Or.inr (List.mem_cons_of_mem w h2)
      · rcases ih _ _ _ h with h2 | h2
        · rcases List.mem_append.mp h2 with h3 | h3
          · exact Or.inl h3
          · exact Or.inr (List.mem_cons.mpr (Or.inl (List.mem_singleton.mp h3)))
        · exact Or.inr (List.mem_cons_of_mem w h2)

/-- Every kept token is the surface form of some tagged token. -/
theorem filterKept_mem (toks : List (String × String)) (w : String)
    (h : w ∈ filterKept toks) : ∃ p ∈ toks, p.1 = w := by
  unfold filterKept at h
  rcases List.mem_filterMap.mp h with ⟨wp, hwp, heq⟩
  refine ⟨wp, hwp, ?_⟩
  by_cases hk : keepToken wp.1 wp.2 = true
  · rw [if_pos hk] at heq
    injection heq
  · rw [if_neg hk] at heq
    cases heq

/-- Under the reconstruction contract, the characters of a tagger token come
from the tagged sentence. -/
theorem tagger_token_chars (tagger : Tagger)
    (htag : ∀ s, String.join ((tagger s).map Prod.fst) = s)
    (s : String) (w : String) (hw : ∃ p ∈ tagger s, p.1 = w)
    (c : Char) (hc : c ∈ w.data) : c ∈ s.data := by
  rcases hw with ⟨p, hp, rfl⟩
  have hj : (String.join ((tagger s).map Prod.fst)).data = s.data := by rw [htag s]
  rw [joinData] at hj
  rw [← hj]
  rw [List.map_map]
  exact List.mem_flatten.mpr ⟨p.1.data, List.mem_map.mpr ⟨p, hp, rfl⟩, hc⟩

/-- The condensed sentence only contains characters of the input sentence. -/
theorem condense_chars (tagger : Tagger)
    (htag : ∀ s, String.join ((tagger s).map Prod.fst) = s)
    (s : String) (c : Char) (h : c ∈ (condenseSentence tagger s).data) : c ∈ s.data := by
  unfold condenseSentence condenseKept at h
  split at h
  · cases h
  · rw [joinData] at h
    rcases List.mem_flatten.mp h with ⟨cd, hcd, hc⟩
    rcases List.mem_map.mp hcd with ⟨w, hw, rfl⟩
    rcases dedupAux_mem _ _ _ _ hw with h2 | h2
    · cases h2
    · have := tagger_token_chars tagger htag (stripClauses s) w (filterKept_mem _ _ h2) c hc
      exact stripL_chars s.data c this

/-- Characters of a first replacement come from the table values. -/
theorem firstRepl_chars (syn : SynTable) (k : String) (c : Char)
    (h : c ∈ (firstRepl syn k).data) : ∃ p ∈ syn, ∃ v ∈ p.2, c ∈ v.data := by
  unfold firstRepl lookupSyn at h
  rcases hf : syn.find? (fun p => p.1 == k) with _ | pr
  · rw [hf] at h
    cases h
  · rw [hf] at h
    simp only [Option.map_some', Option.getD_some] at h
    have hmem : pr ∈ syn := List.mem_of_find?_eq_some hf
    rcases hl : pr.2 with _ | ⟨v, vs⟩
    · rw [hl] at h
      cases h
    · rw [hl] at h
      exact ⟨pr, hmem, v, by rw [hl]; exact List.mem_cons_self v vs, h⟩

/-- Characters of a looked-up first candidate come from the table values. -/
theorem headD_lookup_chars (syn : SynTable) (w : String) (l : List String)
    (hl : lookupSyn syn w = some l) (c : Char)
    (h : c ∈ (l.headD "").data) : ∃ p ∈ syn, ∃ v ∈ p.2, c ∈ v.data := by
  unfold lookupSyn at hl
  rcases hf : syn.find? (fun p => p.1 == w) with _ | pr
  · rw [hf] at hl
    cases hl
  · rw [hf] at hl
    have hmem : pr ∈ syn := List.mem_of_find?_eq_some hf
    have hl2 : pr.2 = l := by injection hl
    rcases hv : l with _ | ⟨v, vs⟩
    · rw [hv] at h
      cases h
    · rw [hv] at h
      exact ⟨pr, hmem, v, by rw [hl2, hv]; exact List.mem_cons_self v vs, h⟩

/-- Every character of the substituted text comes from a segmentation token
or from a replacement value of the table. -/
theorem replaceGo_chars (syn : SynTable) (text : String) :
    ∀ (words : List String) (idx : Nat) (c : Char),
      c ∈ (String.join (replaceGo syn text words idx)).data →
      (∃ w ∈ words, c ∈ w.data) ∨ (∃ p ∈ syn, ∃ v ∈ p.2, c ∈ v.data) := by
  intro words
  induction words with
  | nil => intro idx c h; rw [joinData] at h; cases h
  | cons w rest ih =>
    intro idx c h
    rcases hl : lookupSyn syn w with _ | l
    · rw [show replaceGo syn text (w :: rest) idx =
          w :: replaceGo syn text rest (idx + w.length) from by simp [replaceGo, hl]] at h
      rw [joinData, List.map_cons, List.flatten_cons] at h
      rcases List.mem_append.mp h with h2 | h2
      · exact Or.inl ⟨w, List.mem_cons_self w rest, h2⟩
      · rcases ih (idx + w.length) c (by rw [joinData]; exact h2) with h3 | h3
        · exact Or.inl ⟨h3.choose, List.mem_cons_of_mem w h3.choose_spec.1, h3.choose_spec.2⟩
        · exact Or.inr h3
    · rcases hk : findLongest syn text idx with _ | k
      · rw [show replaceGo syn text (w :: rest) idx =
            l.headD "" :: replaceGo syn text rest (idx + w.length) from by
          simp [replaceGo, hl, hk]] at h
        rw [joinData, List.map_cons, List.flatten_cons] at h
        rcases List.mem_append.mp h with h2 | h2
        · exact Or.inr (headD_lookup_chars syn w l hl c h2)
        · rcases ih (idx + w.length) c (by rw [joinData]; exact h2) with h3 | h3
          · exact Or.inl ⟨h3.choose, List.mem_cons_of_mem w h3.choose_spec.1, h3.choose_spec.2⟩
          · exact Or.inr h3
      · rw [show replaceGo syn text (w :: rest) idx =
            firstRepl syn k :: replaceGo syn text rest (idx + k.length) from by
          simp [replaceGo, hl, hk]] at h
        rw [joinData, List.map_cons, List.flatten_cons] at h
        rcases List.mem_append.mp h with h2 | h2
        · exact Or.inr (firstRepl_chars syn k c h2)
        · rcases ih (idx + k.length) c (by rw [joinData]; exact h2) with h3 | h3
          · exact Or.inl ⟨h3.choose, List.mem_cons_of_mem w h3.choose_spec.1, h3.choose_spec.2⟩
          · exact Or.inr h3

/-- Stripping whitespace never introduces characters. -/
theorem pyStrip_mem (cs : List Char) (c : Char) (h : c ∈ pyStrip cs) : c ∈ cs := by
  unfold pyStrip at h
  rw [List.mem_reverse] at h
  have h2 := (List.dropWhile_sublist _).mem h
  rw [List.mem_reverse] at h2
  exact (List.dropWhile_sublist _).mem h2

/-- Under the tokenizer contracts, every character of a processed sentence
comes from the buffered fragment or from a table value. -/
theorem sentenceOut_chars (tagger : Tagger) (segf : Segmenter) (syn : SynTable)
    (htag : ∀ s, String.join ((tagger s).map Prod.fst) = s)
    (hseg : ∀ s, String.join (segf s) = s)
    (t : List Char) (c : Char) (h : c ∈ (sentenceOut tagger segf syn t).data) :
    c ∈ t ∨ (∃ p ∈ syn, ∃ v ∈ p.2, c ∈ v.data) := by
  unfold sentenceOut replaceWords at h
  rcases replaceGo_chars syn _ _ 0 c h with h2 | h2
  · rcases h2 with ⟨w, hw, hc⟩
    have hjoin : (String.join (segf (condenseSentence tagger ⟨pyStrip t⟩))).data
        = (condenseSentence tagger ⟨pyStrip t⟩).data := by
      rw [hseg]
    have hcint : c ∈ (condenseSentence tagger ⟨pyStrip t⟩).data := by
      rw [← hjoin, joinData]
      exact List.mem_flatten.mpr ⟨w.data, List.mem_map.mpr ⟨w, hw, rfl⟩, hc⟩
    have := condense_chars tagger htag _ c hcint
    exact Or.inl (pyStrip_mem t c this)
  · exact Or.inr h2

/-- A processed paragraph whose sentences carry one mark each and whose
replaced texts are mark-free has exactly one mark per sentence. -/
theorem count_marks_out (tagger : Tagger) (segf : Segmenter) (syn : SynTable) :
    ∀ (l : List (List Char × Char)),
      (∀ td ∈ l, isTerminalMark td.2 = true ∧
        (∀ c ∈ (sentenceOut tagger segf syn td.1).data, isTerminalMark c = false)) →
      ((l.map (fun td => (sentenceOut tagger segf syn td.1).data ++ [td.2])).flatten).countP
          (fun c => isTerminalMark c) = l.length := by
  intro l
  induction l with
  | nil => intro _; rfl
  | cons td rest ih =>
    intro h
    have h1 := h td (List.mem_cons_self td rest)
    rw [List.map_cons, List.flatten_cons, List.countP_append, List.countP_append]
    rw [ih (fun x hx => h x (List.mem_cons_of_mem td hx))]
    have hz : ((sentenceOut tagger segf syn td.1).data).countP (fun c => isTerminalMark c) = 0 := by
      rw [List.countP_eq_zero]
      intro a ha
      simp [h1.2 a ha]
    have ho : ([td.2]).countP (fun c => isTerminalMark c) = 1 := by
      simp [List.countP_cons, h1.1]
    rw [hz, ho]
    simp [Nat.add_comm]

/-- Splitting into lines always yields at least one piece. -/
theorem splitLinesGo_ne_nil : ∀ (cs acc : List Char), splitLinesGo acc cs ≠ [] := by
  intro cs
  induction cs with
  | nil => intro acc h; simp [splitLinesGo] at h
  | cons c rest ih =>
    intro acc h
    by_cases hc : c = '\n'
    · rw [show splitLinesGo acc (c :: rest) = acc.reverse :: splitLinesGo [] rest from by
        simp [splitLinesGo, hc]] at h
      cases h
    · rw [show splitLinesGo acc (c :: rest) = splitLinesGo (c :: acc) rest from by
        simp [splitLinesGo, hc]] at h
      exact ih (c :: acc) h

/-- Line pieces are newline-free. -/
theorem splitLinesGo_no_newline : ∀ (cs acc : List Char),
    (∀ c ∈ acc, c ≠ '\n') → ∀ p ∈ splitLinesGo acc cs, '\n' ∉ p := by
  intro cs
  induction cs with
  | nil =>
    intro acc hacc p hp
    rw [show splitLinesGo acc [] = [acc.reverse] from rfl] at hp
    rw [List.mem_singleton.mp hp]
    intro hmem
    exact hacc _ (List.mem_reverse.mp hmem) rfl
  | cons c rest ih =>
    intro acc hacc p hp
    by_cases hc : c = '\n'
    · rw [show splitLinesGo acc (c :: rest) = acc.reverse :: splitLinesGo [] rest from by
        simp [splitLinesGo, hc]] at hp
      rcases List.mem_cons.mp hp with rfl | hp2
      · intro hmem
        exact hacc _ (List.mem_reverse.mp hmem) rfl
      · exact ih [] (by intro x hx; cases hx) p hp2
    · rw [show splitLinesGo acc (c :: rest) = splitLinesGo (c :: acc) rest from by
        simp [splitLinesGo, hc]] at hp
      exact ih (c :: acc) (by
        intro x hx
        rcases List.mem_cons.mp hx with rfl | hx2
        · exact hc
        · exact hacc x hx2) p hp

/-- Paragraphs obtained by splitting contain no line break. -/
theorem splitLinesL_no_newline (cs : List Char) :
    ∀ p ∈ splitLinesL cs, '\n' ∉ p :=
  splitLinesGo_no_newline cs [] (by intro x hx; cases hx)

/-- Splitting a newline-free tail yields a single piece. -/
theorem splitLinesGo_no_nl_eq : ∀ (p acc : List Char), '\n' ∉ p →
    splitLinesGo acc p = [acc.reverse ++ p] := by
  intro p
  induction p with
  | nil => intro acc _; simp [splitLinesGo]
  | cons c rest ih =>
    intro acc hnl
    have hc : c ≠ '\n' := fun h => hnl (h ▸ List.mem_cons_self c rest)
    rw [show splitLinesGo acc (c :: rest) = splitLinesGo (c :: acc) rest from by
      simp [splitLinesGo, hc]]
    rw [ih (c :: acc) (fun h => hnl (List.mem_cons_of_mem c h))]
    simp

/-- Splitting cuts at the first line break. -/
theorem splitLinesGo_nl_append : ∀ (p acc rest : List Char), '\n' ∉ p →
    splitLinesGo acc (p ++ '\n' :: rest) = (acc.reverse ++ p) :: splitLinesGo [] rest := by
  intro p
  induction p with
  | nil =>
    intro acc rest _
    simp [splitLinesGo]
  | cons c t ih =>
    intro acc rest hnl
    have hc : c ≠ '\n' := fun h => hnl (h ▸ List.mem_cons_self c t)
    rw [List.cons_append]
    rw [show splitLinesGo acc (c :: (t ++ '\n' :: rest)) = splitLinesGo (c :: acc) (t ++ '\n' :: rest) from by
      simp [splitLinesGo, hc]]
    rw [ih (c :: acc) rest (fun h => hnl (List.mem_cons_of_mem c h))]
    simp

/-- Splitting the line-joined newline-free pieces recovers the pieces. -/
theorem splitLines_joinLines : ∀ (parts : List (List Char)), parts ≠ [] →
    (∀ p ∈ parts, '\n' ∉ p) → splitLinesL (joinLines parts) = parts := by
  intro parts
  induction parts with
  | nil => intro h _; exact absurd rfl h
  | cons p rest ih =>
    intro _ hnl
    rcases rest with _ | ⟨q, rest2⟩
    · rw [show joinLines [p] = p from rfl]
      unfold splitLinesL
      rw [splitLinesGo_no_nl_eq p [] (hnl p (List.mem_cons_self p []))]
      rfl
    · rw [show joinLines (p :: q :: rest2) = p ++ '\n' :: joinLines (q :: rest2) from rfl]
      unfold splitLinesL
      rw [splitLinesGo_nl_append p [] _ (hnl p (List.mem_cons_self p _))]
      rw [show splitLinesGo [] (joinLines (q :: rest2)) = splitLinesL (joinLines (q :: rest2)) from rfl]
      rw [ih (by intro h; cases h) (fun x hx => hnl x (List.mem_cons_of_mem p hx))]
      simp

/-- Under the tokenizer contracts and a newline-free table, a processed
paragraph contains no line break. -/
theorem processPara_no_newline (tagger : Tagger) (segf : Segmenter) (syn : SynTable)
    (htag : ∀ s, String.join ((tagger s).map Prod.fst) = s)
    (hseg : ∀ s, String.join (segf s) = s)
    (hdict : ∀ p ∈ syn, ∀ v ∈ p.2, ∀ c ∈ v.data, c ≠ '\n')
    (para : List Char) (hpara : '\n' ∉ para) :
    '\n' ∉ (processPara tagger segf syn para).1 := by
  rw [processPara_eq]
  intro hmem
  rcases List.mem_flatten.mp hmem with ⟨piece, hpiece, hc⟩
  rcases List.mem_map.mp hpiece with ⟨td, htd, rfl⟩
  have hsent := sentsGo_chars para [] (by intro x hx; cases hx) td htd
  rcases List.mem_append.mp hc with h1 | h1
  · rcases sentenceOut_chars tagger segf syn htag hseg td.1 '\n' h1 with h2 | h2
    · rcases (hsent.2 '\n' h2).2 with h3 | h3
      · cases h3
      · exact hpara h3
    · rcases h2 with ⟨p, hp, v, hv, hcv⟩
      exact hdict p hp v hv '\n' hcv rfl
  · have heq := List.mem_singleton.mp h1
    have hmark := hsent.1
    rw [← heq] at hmark
    simp [isTerminalMark] at hmark

/-- Under the tokenizer contracts and a mark-free table, a processed
paragraph has exactly as many terminal marks as the input paragraph. -/
theorem processPara_marks (tagger : Tagger) (segf : Segmenter) (syn : SynTable)
    (htag : ∀ s, String.join ((tagger s).map Prod.fst) = s)
    (hseg : ∀ s, String.join (segf s) = s)
    (hdict : ∀ p ∈ syn, ∀ v ∈ p.2, ∀ c ∈ v.data, isTerminalMark c = false)
    (para : List Char) :
    ((processPara tagger segf syn para).1).countP (fun c => isTerminalMark c)
      = para.countP (fun c => isTerminalMark c) := by
  rw [processPara_eq]
  rw [← sentsGo_length para []]
  apply count_marks_out
  intro td htd
  have hsent := sentsGo_chars para [] (by intro x hx; cases hx) td htd
  refine ⟨hsent.1, ?_⟩
  intro c hc
  rcases sentenceOut_chars tagger segf syn htag hseg td.1 c hc with h2 | h2
  · exact (hsent.2 c h2).1
  · rcases h2 with ⟨p, hp, v, hv, hcv⟩
    exact hdict p hp v hv c hcv

/-- The processed text splits back into exactly one processed paragraph per
input paragraph. -/
theorem splitLines_processL (tagger : Tagger) (segf : Segmenter) (syn : SynTable)
    (htag : ∀ s, String.join ((tagger s).map Prod.fst) = s)
    (hseg : ∀ s, String.join (segf s) = s)
    (hdict : ∀ p ∈ syn, ∀ v ∈ p.2, ∀ c ∈ v.data, c ≠ '\n')
    (text : List Char) :
    splitLinesL (processL tagger segf syn text).1
      = (splitLinesL text).map (fun p => (processPara tagger segf syn p).1) := by
  unfold processL
  dsimp only
  rw [show List.map Prod.fst (List.map (processPara tagger segf syn) (splitLinesL text))
      = (splitLinesL text).map (fun p => (processPara tagger segf syn p).1) from by
    rw [List.map_map]
    rfl]
  apply splitLines_joinLines
  · intro h
    have h2 := congrArg List.length h
    rw [List.length_map] at h2
    exact splitLinesGo_ne_nil text [] (List.length_eq_zero.mp h2)
  · intro q hq
    rcases List.mem_map.mp hq with ⟨p, hp, rfl⟩
    exact processPara_no_newline tagger segf syn htag hseg hdict p
      (splitLinesL_no_newline text p hp)

/-- The one-token stub tagger satisfies the reconstruction contract. -/
theorem demoTagger_contract : ∀ s, String.join ((demoTagger s).map Prod.fst) = s :=
  fun s => join_singleton s

/-- The one-token stub segmenter satisfies the reconstruction contract. -/
theorem demoSegf_contract : ∀ s, String.join (demoSegf s) = s := by
  intro s
  by_cases h : s = ""
  · subst h
    rfl
  · simp [demoSegf, h, join_singleton]

/-- The noun-recognising stub tagger satisfies the reconstruction contract. -/
theorem nounTagger_contract : ∀ s, String.join ((nounTagger s).map Prod.fst) = s := by
  intro s
  by_cases h : s = "电脑"
  · subst h
    rfl
  · simp [nounTagger, h, join_singleton]

/-- **C5, amended**: assuming the tokenizer reconstruction contract of the
specification and a table whose replacement values contain no line break and
no terminal mark, process preserves the number of line-delimited paragraphs
(including empty ones) and, paragraph by paragraph, the number of terminal
marks; a sentence whose condensed or substituted content is empty still
contributes its terminal mark alone (猫跑了。 condenses to nothing under a
tagger that keeps no token, and the output is exactly 。). -/
theorem process_structure_amended (tagger : Tagger) (segf : Segmenter) (syn : SynTable)
    (text : String)
    (htag : ∀ s, String.join ((tagger s).map Prod.fst) = s)
    (hseg : ∀ s, String.join (segf s) = s)
    (hdict : ∀ p ∈ syn, ∀ v ∈ p.2, ∀ c ∈ v.data, c ≠ '\n' ∧ isTerminalMark c = false) :
    (splitLinesL (processL tagger segf syn text.data).1).length
      = (splitLinesL text.data).length
  ∧ (splitLinesL (processL tagger segf syn text.data).1).map
        (fun p => p.countP (fun c => isTerminalMark c))
      = (splitLinesL text.data).map (fun p => p.countP (fun c => isTerminalMark c))
  ∧ (processL demoTagger demoSegf [] "猫跑了。".data).1 = "。".data := by
  have hNL : ∀ p ∈ syn, ∀ v ∈ p.2, ∀ c ∈ v.data, c ≠ '\n' :=
    fun p hp v hv c hc => (hdict p hp v hv c hc).1
  have hMK : ∀ p ∈ syn, ∀ v ∈ p.2, ∀ c ∈ v.data, isTerminalMark c = false :=
    fun p hp v hv c hc => (hdict p hp v hv c hc).2
  have key := splitLines_processL tagger segf syn htag hseg hNL text.data
  refine ⟨by rw [key, List.length_map], ?_, by decide⟩
  rw [key, List.map_map]
  apply List.map_congr_left
  intro p hp
  exact processPara_marks tagger segf syn htag hseg hMK p

/-- Witness for the amended C5, with the hypotheses discharged by the
concrete stub tokenizer and the empty table. -/
theorem process_structure_amended_witness :
    (splitLinesL (processL demoTagger demoSegf [] "猫跑了。".data).1).length
      = (splitLinesL "猫跑了。".data).length :=
  (process_structure_amended demoTagger demoSegf [] "猫跑了。"
    demoTagger_contract demoSegf_contract (by intro p hp; cases hp)).1

/-- **C5, counterexample**: with a replacement value containing a terminal
mark (机。) the mark count of the paragraph grows from 1 to 2, and with a
replacement value containing a line break the paragraph count grows from 1
to 2 — the stub tokenizer used satisfies the reconstruction contract (see
the contract lemmas), so the failure is due to the table content alone. -/
theorem process_counts_counterexample :
    ((processL nounTagger demoSegf [("电脑", ["机。"])] "电脑。".data).1).countP
        (fun c => isTerminalMark c) = 2
  ∧ ("电脑。".data).countP (fun c => isTerminalMark c) = 1
  ∧ (splitLinesL (processL nounTagger demoSegf [("电脑", ["机\n器"])] "电脑。".data).1).length = 2
  ∧ (splitLinesL "电脑。".data).length = 1 := by
  refine ⟨by decide, by decide, by decide, by decide⟩

/-- filterMap distributes over flatten. -/
theorem filterMap_flatten_comm (f : List Char × Char → Option (List Char × List Char)) :
    ∀ (L : List (List (List Char × Char))),
      List.filterMap f L.flatten = (L.map (List.filterMap f)).flatten := by
  intro L
  induction L with
  | nil => rfl
  | cons l rest ih => rw [List.flatten_cons, List.filterMap_append, ih]; rfl

/-- **C8**: no pair list is returned when contrast output is not requested;
when it is requested, the returned list has, in document order, exactly one
pair (trimmed original + its mark, substituted text + the same mark) per
sentence whose trimmed original and whose substituted text are both
non-empty — sentencePairOpt is exactly that filter. -/
theorem process_contrast_pairs (tagger : Tagger) (segf : Segmenter) (syn : SynTable)
    (text : String) :
    (process tagger segf syn text false).2 = none
  ∧ (process tagger segf syn text true).2 =
      some (((sentencesOf text.data).filterMap (fun td =>
          sentencePairOpt tagger segf syn td.1 td.2)).map
        (fun pr => (String.mk pr.1, String.mk pr.2))) := by
  have hpairs : (processL tagger segf syn text.data).2 =
      (sentencesOf text.data).filterMap (fun td =>
        sentencePairOpt tagger segf syn td.1 td.2) := by
    unfold processL sentencesOf
    dsimp only
    rw [filterMap_flatten_comm]
    rw [List.map_map, List.map_map]
    apply congrArg List.flatten
    apply List.map_congr_left
    intro p hp
    rw [show (Prod.snd ∘ processPara tagger segf syn) p = (processPara tagger segf syn p).2 from rfl]
    rw [processPara_eq]
    rfl
  constructor
  · rfl
  · rw [show (process tagger segf syn text true).2 =
        some ((processL tagger segf syn text.data).2.map
          (fun pr => (String.mk pr.1, String.mk pr.2))) from rfl]
    rw [hpairs]

/-- **C9**: appending mark-free text to a paragraph changes neither the
processed output nor its contrast pairs (the trailing text is silently
dropped), and a paragraph with no terminal mark at all produces an empty
processed paragraph and no pair. -/
theorem trailing_dropped (tagger : Tagger) (segf : Segmenter) (syn : SynTable)
    (para trailing : List Char)
    (h : ∀ c ∈ trailing, isTerminalMark c = false) :
    processPara tagger segf syn (para ++ trailing) = processPara tagger segf syn para
  ∧ ((∀ c ∈ para, isTerminalMark c = false) →
      processPara tagger segf syn para = ([], [])) := by
  constructor
  · rw [processPara_eq, processPara_eq, sentsGo_append_noMarks trailing h para []]
  · intro hp
    rw [processPara_eq, sentsGo_noMarks para hp []]
    rfl

/-- Witness for C9 on a concrete paragraph and trailing fragment. -/
theorem trailing_dropped_witness :
    (∀ c ∈ "猫叫".data, isTerminalMark c = false)
  ∧ processPara demoTagger demoSegf [] ("狗跑了。".data ++ "猫叫".data)
      = processPara demoTagger demoSegf [] "狗跑了。".data :=
  ⟨by decide, (trailing_dropped demoTagger demoSegf [] "狗跑了。".data "猫叫".data (by decide)).1⟩

end AutoDisplaced
